import Mathlib

/-!
Verification of `stormspotter/collect/utils.py`: the `chunk` batching
generator, the `sqlite_writer` result sink, and the counter handling of
`gen_results_tables`, modelled as a shallow embedding.
-/

namespace Stormspotter

/-- Python exception classes raised by the modelled code. `dbFatal` stands for
any database-driver exception other than `sqlite3.OperationalError`
(for example a corruption or permission error). -/
inductive PyErr
  | valueError
  | typeError
  | overflowError
  | operationalError
  | dbFatal
  deriving DecidableEq, Repr

/-! ## The `chunk` generator (utils.py lines 47-53)

`chunk(data, size)` iterates `for idx in range(0, len(data), size)` and yields
`data[idx : idx + size]` for a list, or `{key: data[key] for key in
islice(data, size)}` for a dict.  A dict is modelled as its association list in
iteration (insertion) order.  Running the generator to completion either
produces the list of yielded chunks or raises: `range` with step `0` raises
`ValueError` at the first `next`, and a negative step over `[0, len)` gives an
empty range. -/

/-- The Python slice `data[idx : idx + size]`. -/

def pySlice {α : Type _} (data : List α) (idx size : ℕ) : List α :=
  (data.drop idx).take size

/-- Number of elements of `range(0, stop, step)` for positive `step`:
the ceiling of `stop / step`. -/
def rangeLen (stop step : ℕ) : ℕ := (stop + step - 1) / step

/-- The Python `range(0, stop, step)` for positive `step`. -/
def pyRange (stop step : ℕ) : List ℕ := (List.range (rangeLen stop step)).map (· * step)

/-- The list branch of `chunk` for positive `size`: yield
`data[idx : idx + size]` for each `idx` in `range(0, len(data), size)`. -/
def chunkListPos {α : Type _} (data : List α) (size : ℕ) : List (List α) :=
  (pyRange data.length size).map (fun idx => pySlice data idx size)

/-- Python `data[key]` lookup in a dict modelled as an association list. -/
def dictLookup {K V : Type _} [DecidableEq K] (data : List (K × V)) (k : K) : Option V :=
  (data.find? (fun kv => kv.1 = k)).map Prod.snd

/-- The dict branch of `chunk` for positive `size`: each iteration of the
`range` loop yields `{key: data[key] for key in islice(data, size)}`.
`islice(data, size)` iterates the dict's keys from the start, so every
iteration produces the first `min size (len data)` keys, looked up in the
original dict. -/
def chunkDictPos {K V : Type _} [DecidableEq K] (data : List (K × V)) (size : ℕ) :
    List (List (K × V)) :=
  (pyRange data.length size).map (fun _ =>
    ((data.take size).map Prod.fst).filterMap
      (fun k => (dictLookup data k).map (fun v => (k, v))))

/-- Running the generator `chunk(data, size)` to completion on a list input. -/
def chunkListRun {α : Type _} (data : List α) (size : ℤ) : Except PyErr (List (List α)) :=
  if size = 0 then .error .valueError
  else if size < 0 then .ok []
  else .ok (chunkListPos data size.toNat)

/-- Running the generator `chunk(data, size)` to completion on a dict input. -/
def chunkDictRun {K V : Type _} [DecidableEq K] (data : List (K × V)) (size : ℤ) :
    Except PyErr (List (List (K × V))) :=
  if size = 0 then .error .valueError
  else if size < 0 then .ok []
  else .ok (chunkDictPos data size.toNat)

/-! ## The binary codec (msgpack)

Modelled from the spec: the `msgpack` library used at utils.py line 41 is not
part of this repository.  The spec (section 6) requires a compact binary
serialization, equivalent to msgpack, that round-trips maps, sequences,
scalars and nested combinations exactly.  The definitions below follow the
msgpack wire format: a tag byte selecting the format, big-endian length and
value fields, then the payload. -/

/-- Exceptions `msgpack.dumps` can raise: `TypeError` for an object outside
the codec's domain, `OverflowError` for an integer beyond the 64-bit formats,
`ValueError` for an over-long string or container. -/

inductive SerErr
  | typeError
  | overflowError
  | valueError
  deriving DecidableEq, Repr

/-- The Python exception class of a serialization error. -/
def SerErr.toPy : SerErr → PyErr
  | .typeError => .typeError
  | .overflowError => .overflowError
  | .valueError => .valueError

/-- Big-endian byte sequence of `n`, `w` bytes wide (`n` taken mod `256 ^ w`). -/
def beBytes : ℕ → ℕ → List ℕ
  | 0, _ => []
  | w + 1, n => beBytes w (n / 256) ++ [n % 256]

/-- Value of a big-endian byte sequence. -/
def beVal (bs : List ℕ) : ℕ := bs.foldl (fun a b => a * 256 + b) 0

/-- The Python values handled by the result sink: the msgpack-serializable
structures (nil, booleans, integers, strings, byte strings, sequences, maps),
plus `obj` standing for any value outside the codec's domain.  Strings and
byte strings are modelled by their byte sequences. -/
inductive MVal
  | nil
  | boolean (b : Bool)
  | int (n : ℤ)
  | str (s : List ℕ)
  | bin (s : List ℕ)
  | arr (xs : List MVal)
  | dict (kvs : List (MVal × MVal))
  | obj

/-- msgpack encoding of an integer, choosing the smallest format as
`msgpack.dumps` does; integers beyond the 64-bit formats raise
`OverflowError`. -/
def encInt (n : ℤ) : Except SerErr (List ℕ) :=
  if 0 ≤ n then
    if n.toNat ≤ 127 then .ok [n.toNat]
    else if n.toNat ≤ 255 then .ok [0xcc, n.toNat]
    else if n.toNat ≤ 65535 then .ok (0xcd :: beBytes 2 n.toNat)
    else if n.toNat ≤ 4294967295 then .ok (0xce :: beBytes 4 n.toNat)
    else if n.toNat ≤ 18446744073709551615 then .ok (0xcf :: beBytes 8 n.toNat)
    else .error .overflowError
  else
    if -32 ≤ n then .ok [(n + 256).toNat]
    else if -128 ≤ n then .ok [0xd0, (n + 256).toNat]
    else if -32768 ≤ n then .ok (0xd1 :: beBytes 2 (n + 65536).toNat)
    else if -2147483648 ≤ n then .ok (0xd2 :: beBytes 4 (n + 4294967296).toNat)
    else if -9223372036854775808 ≤ n then
      .ok (0xd3 :: beBytes 8 (n + 18446744073709551616).toNat)
    else .error .overflowError

/-- msgpack header for a string of `len` bytes. -/
def encStrHeader (len : ℕ) : Except SerErr (List ℕ) :=
  if len ≤ 31 then .ok [0xa0 + len]
  else if len ≤ 255 then .ok [0xd9, len]
  else if len ≤ 65535 then .ok (0xda :: beBytes 2 len)
  else if len ≤ 4294967295 then .ok (0xdb :: beBytes 4 len)
  else .error .valueError

/-- msgpack header for a byte string of `len` bytes. -/
def encBinHeader (len : ℕ) : Except SerErr (List ℕ) :=
  if len ≤ 255 then .ok [0xc4, len]
  else if len ≤ 65535 then .ok (0xc5 :: beBytes 2 len)
  else if len ≤ 4294967295 then .ok (0xc6 :: beBytes 4 len)
  else .error .valueError

/-- msgpack header for an array of `n` elements. -/
def encArrHeader (n : ℕ) : Except SerErr (List ℕ) :=
  if n ≤ 15 then .ok [0x90 + n]
  else if n ≤ 65535 then .ok (0xdc :: beBytes 2 n)
  else if n ≤ 4294967295 then .ok (0xdd :: beBytes 4 n)
  else .error .valueError

/-- msgpack header for a map of `n` pairs. -/
def encMapHeader (n : ℕ) : Except SerErr (List ℕ) :=
  if n ≤ 15 then .ok [0x80 + n]
  else if n ≤ 65535 then .ok (0xde :: beBytes 2 n)
  else if n ≤ 4294967295 then .ok (0xdf :: beBytes 4 n)
  else .error .valueError

mutual

/-- `msgpack.dumps`: tag byte(s) followed by the payload. -/
def dumps : MVal → Except SerErr (List ℕ)
  | .nil => .ok [0xc0]
  | .boolean b => .ok [if b then 0xc3 else 0xc2]
  | .int n => encInt n
  | .str s => do pure ((← encStrHeader s.length) ++ s)
  | .bin s => do pure ((← encBinHeader s.length) ++ s)
  | .arr xs => do pure ((← encArrHeader xs.length) ++ (← dumpsList xs))
  | .dict kvs => do pure ((← encMapHeader kvs.length) ++ (← dumpsPairs kvs))
  | .obj => .error .typeError

/-- Concatenated encodings of the elements of an array. -/
def dumpsList : List MVal → Except SerErr (List ℕ)
  | [] => .ok []
  | x :: xs => do pure ((← dumps x) ++ (← dumpsList xs))

/-- Concatenated encodings of the key/value pairs of a map. -/
def dumpsPairs : List (MVal × MVal) → Except SerErr (List ℕ)
  | [] => .ok []
  | (k, v) :: kvs => do pure ((← dumps k) ++ ((← dumps v) ++ (← dumpsPairs kvs)))

end

/-- Read `w` bytes off the front of the stream. -/
def readBytes (w : ℕ) (bs : List ℕ) : Option (List ℕ × List ℕ) :=
  if w ≤ bs.length then some (bs.take w, bs.drop w) else none

/-- Two's-complement reading of a `w`-byte big-endian value. -/
def sdecode (w v : ℕ) : ℤ :=
  if 2 ^ (8 * w - 1) ≤ v then (v : ℤ) - 2 ^ (8 * w) else (v : ℤ)

set_option maxRecDepth 8000

mutual

/-- One-value msgpack decoder, dispatching on the tag byte; `fuel` bounds the
nesting depth. -/
def loadVal : ℕ → List ℕ → Option (MVal × List ℕ)
  | 0, _ => none
  | _ + 1, [] => none
  | fuel + 1, t :: bs =>
    if t ≤ 0x7f then some (.int (t : ℤ), bs)
    else if 0xe0 ≤ t ∧ t ≤ 0xff then some (.int ((t : ℤ) - 256), bs)
    else if t ≤ 0x8f then do
      let (kvs, rest) ← loadPairs fuel (t - 0x80) bs
      pure (.dict kvs, rest)
    else if t ≤ 0x9f then do
      let (xs, rest) ← loadItems fuel (t - 0x90) bs
      pure (.arr xs, rest)
    else if t ≤ 0xbf then do
      let (s, rest) ← readBytes (t - 0xa0) bs
      pure (.str s, rest)
    else if t = 0xc0 then some (.nil, bs)
    else if t = 0xc2 then some (.boolean false, bs)
    else if t = 0xc3 then some (.boolean true, bs)
    else if t = 0xc4 then do
      let (lb, r1) ← readBytes 1 bs
      let (s, rest) ← readBytes (beVal lb) r1
      pure (.bin s, rest)
    else if t = 0xc5 then do
      let (lb, r1) ← readBytes 2 bs
      let (s, rest) ← readBytes (beVal lb) r1
      pure (.bin s, rest)
    else if t = 0xc6 then do
      let (lb, r1) ← readBytes 4 bs
      let (s, rest) ← readBytes (beVal lb) r1
      pure (.bin s, rest)
    else if t = 0xcc then do
      let (lb, rest) ← readBytes 1 bs
      pure (.int (beVal lb), rest)
    else if t = 0xcd then do
      let (lb, rest) ← readBytes 2 bs
      pure (.int (beVal lb), rest)
    else if t = 0xce then do
      let (lb, rest) ← readBytes 4 bs
      pure (.int (beVal lb), rest)
    else if t = 0xcf then do
      let (lb, rest) ← readBytes 8 bs
      pure (.int (beVal lb), rest)
    else if t = 0xd0 then do
      let (lb, rest) ← readBytes 1 bs
      pure (.int (sdecode 1 (beVal lb)), rest)
    else if t = 0xd1 then do
      let (lb, rest) ← readBytes 2 bs
      pure (.int (sdecode 2 (beVal lb)), rest)
    else if t = 0xd2 then do
      let (lb, rest) ← readBytes 4 bs
      pure (.int (sdecode 4 (beVal lb)), rest)
    else if t = 0xd3 then do
      let (lb, rest) ← readBytes 8 bs
      pure (.int (sdecode 8 (beVal lb)), rest)
    else if t = 0xd9 then do
      let (lb, r1) ← readBytes 1 bs
      let (s, rest) ← readBytes (beVal lb) r1
      pure (.str s, rest)
    else if t = 0xda then do
      let (lb, r1) ← readBytes 2 bs
      let (s, rest) ← readBytes (beVal lb) r1
      pure (.str s, rest)
    else if t = 0xdb then do
      let (lb, r1) ← readBytes 4 bs
      let (s, rest) ← readBytes (beVal lb) r1
      pure (.str s, rest)
    else if t = 0xdc then do
      let (lb, r1) ← readBytes 2 bs
      let (xs, rest) ← loadItems fuel (beVal lb) r1
      pure (.arr xs, rest)
    else if t = 0xdd then do
      let (lb, r1) ← readBytes 4 bs
      let (xs, rest) ← loadItems fuel (beVal lb) r1
      pure (.arr xs, rest)
    else if t = 0xde then do
      let (lb, r1) ← readBytes 2 bs
      let (kvs, rest) ← loadPairs fuel (beVal lb) r1
      pure (.dict kvs, rest)
    else if t = 0xdf then do
      let (lb, r1) ← readBytes 4 bs
      let (kvs, rest) ← loadPairs fuel (beVal lb) r1
      pure (.dict kvs, rest)
    else none
termination_by fuel bs => (fuel, 0, 0)

/-- Decode `n` consecutive values (an array body). -/
def loadItems : ℕ → ℕ → List ℕ → Option (List MVal × List ℕ)
  | _, 0, bs => some ([], bs)
  | fuel, n + 1, bs => do
    let (x, r1) ← loadVal fuel bs
    let (xs, rest) ← loadItems fuel n r1
    pure (x :: xs, rest)
termination_by fuel n bs => (fuel, n, 1)

/-- Decode `n` consecutive key/value pairs (a map body). -/
def loadPairs : ℕ → ℕ → List ℕ → Option (List (MVal × MVal) × List ℕ)
  | _, 0, bs => some ([], bs)
  | fuel, n + 1, bs => do
    let (k, r1) ← loadVal fuel bs
    let (v, r2) ← loadVal fuel r1
    let (kvs, rest) ← loadPairs fuel n r2
    pure ((k, v) :: kvs, rest)
termination_by fuel n bs => (fuel, n, 1)

end

/-- `msgpack.loads`: decode one value and require the stream to be fully
consumed. -/
def loads (bs : List ℕ) : Option MVal :=
  match loadVal (bs.length + 1) bs with
  | some (v, []) => some v
  | _ => none

mutual

/-- Nesting depth of a value: the decoder fuel needed to parse it. -/
def mdepth : MVal → ℕ
  | .arr xs => mdepthList xs + 1
  | .dict kvs => mdepthPairs kvs + 1
  | _ => 1

/-- Maximum nesting depth over a list of values. -/
def mdepthList : List MVal → ℕ
  | [] => 0
  | x :: xs => max (mdepth x) (mdepthList xs)

/-- Maximum nesting depth over a list of pairs of values. -/
def mdepthPairs : List (MVal × MVal) → ℕ
  | [] => 0
  | (k, v) :: kvs => max (max (mdepth k) (mdepth v)) (mdepthPairs kvs)

end

/-! ## The result sink `sqlite_writer` (utils.py lines 22-44)

The driver calls (`connect`, `execute`, `commit`) are external; each call's
outcome — success, `sqlite3.OperationalError` (the transient-lock class), or
any other driver exception — is decided by an environment.  The store state
tracks the file, the durable `results` table, the committed rows, and the
rows inserted in the current connection's open transaction (`pending`);
closing a connection on an exception rolls its open transaction back.  The
unbounded `while True` loop is observed through a fuel bound: exhausting the
fuel means the call is still retrying, not that it returned. -/

/-- Outcome of one database-driver operation, decided by the environment. -/

inductive DbOut
  | ok
  | opErr
  | fatal
  deriving DecidableEq, Repr

/-- The environment of one `sqlite_writer` call: the outcome of every driver
operation it may attempt.  `attempts k` gives the outcomes of the insert and
of the commit in iteration `k` of the retry loop. -/
structure Env where
  createConn : DbOut
  createExec : DbOut
  createCommit : DbOut
  writeConn : DbOut
  attempts : ℕ → DbOut × DbOut

/-- State of one `sqlite_writer` call: the record variable `res`, the store
file, the durable `results` table, the rows of the open transaction, and the
committed rows. -/
structure WState where
  record : MVal
  fileExists : Bool
  tableExists : Bool
  pending : List (List ℕ)
  rows : List (List ℕ)

/-- What an observed prefix of a `sqlite_writer` call did: returned, raised,
or still inside the retry loop after the observed iterations. -/
inductive WOut
  | success
  | raised (e : PyErr)
  | running
  deriving DecidableEq, Repr

/-- utils.py lines 25-34: if the file does not exist, open a connection, issue
`CREATE TABLE IF NOT EXISTS results`, and commit, suppressing
`OperationalError` around the whole block; any other exception propagates.
The table becomes durable when the commit completes; `IF NOT EXISTS` makes
the statement a no-op rather than an error when the table is already there. -/
def schemaCreate (env : Env) (st : WState) : Option PyErr × WState :=
  if st.fileExists then (none, st)
  else
    match env.createConn with
    | .opErr => (none, st)
    | .fatal => (some .dbFatal, st)
    | .ok =>
      match env.createExec with
      | .opErr => (none, { st with fileExists := true })
      | .fatal => (some .dbFatal, { st with fileExists := true })
      | .ok =>
        match env.createCommit with
        | .opErr => (none, { st with fileExists := true })
        | .fatal => (some .dbFatal, { st with fileExists := true })
        | .ok => (none, { st with fileExists := true, tableExists := true })

/-- utils.py lines 37-44: the retry loop.  Every iteration re-serializes the
record, attempts the insert, then the commit, suppressing `OperationalError`
around the whole unit and leaving the loop after a successful commit.  A
serialization error or a non-`OperationalError` driver exception propagates,
rolling back the open transaction; an insert into a missing table is itself
an `OperationalError`.  A successful commit makes every pending insert
durable.  `k` counts the iterations already performed. -/
def writeLoop (env : Env) : ℕ → ℕ → WState → WOut × WState
  | 0, _, st => (.running, st)
  | fuel + 1, k, st =>
    match dumps st.record with
    | .error e => (.raised e.toPy, { st with pending := [] })
    | .ok payload =>
      match (if st.tableExists then (env.attempts k).1 else DbOut.opErr) with
      | .fatal => (.raised .dbFatal, { st with pending := [] })
      | .opErr => writeLoop env fuel (k + 1) st
      | .ok =>
        match (env.attempts k).2 with
        | .fatal => (.raised .dbFatal, { st with pending := [] })
        | .opErr => writeLoop env fuel (k + 1) { st with pending := st.pending ++ [payload] }
        | .ok =>
          (.success, { st with pending := [], rows := st.rows ++ (st.pending ++ [payload]) })

/-- utils.py lines 22-44, `sqlite_writer(output, res)`: the schema-creation
block, then a fresh connection (whose errors are not suppressed) with an
empty transaction, then the retry loop. -/
def sqlite_writer (env : Env) (fuel : ℕ) (st : WState) : WOut × WState :=
  match schemaCreate env st with
  | (some e, st1) => (.raised e, st1)
  | (none, st1) =>
    match env.writeConn with
    | .fatal => (.raised .dbFatal, { st1 with fileExists := true })
    | .opErr => (.raised .operationalError, { st1 with fileExists := true })
    | .ok => writeLoop env fuel 0 { st1 with fileExists := true, pending := [] }

/-- Effective insert outcome of iteration `k`: inserting into a missing table
raises `OperationalError` regardless of the driver outcome. -/
def attemptIns (tbl : Bool) (env : Env) (k : ℕ) : DbOut :=
  if tbl then (env.attempts k).1 else .opErr

/-- Iteration `k` fails with a suppressed transient-lock error, at the insert
or at the commit. -/
def attemptLocks (tbl : Bool) (env : Env) (k : ℕ) : Prop :=
  attemptIns tbl env k = .opErr ∨
    (attemptIns tbl env k = .ok ∧ (env.attempts k).2 = .opErr)

/-- An environment whose every driver operation succeeds. -/
def envOk : Env :=
  { createConn := .ok, createExec := .ok, createCommit := .ok, writeConn := .ok,
    attempts := fun _ => (.ok, .ok) }

/-- A store state with the file and table present and a trivial record. -/
def stOk : WState :=
  { record := .nil, fileExists := true, tableExists := true, pending := [], rows := [] }

/-- A store state holding a record the codec cannot encode. -/
def stObj : WState :=
  { record := .obj, fileExists := true, tableExists := true, pending := [], rows := [] }

/-- Python `counter.pop(None, None)` on a dict modelled as an association
list: remove the entry keyed `None`, if present. -/
def dictPopNone (c : List (Option String × ℕ)) : List (Option String × ℕ) :=
  c.eraseP (fun kv => kv.1.isNone)

/-- The Python tuple order `sorted` uses on `(key, count)` items. -/
def itemLe (a b : Option String × ℕ) : Bool :=
  match a.1, b.1 with
  | none, _ => true
  | some _, none => false
  | some x, some y => if x = y then a.2 ≤ b.2 else x < y

/-- Python `sorted(counter.items())`. -/
def pySorted (l : List (Option String × ℕ)) : List (Option String × ℕ) :=
  l.mergeSort itemLe

/-- The row data of the rendered result tables: the AAD table's rows when that
panel is shown, and one row list per ARM column table. -/
structure ResultsTables where
  aadRows : Option (List (Option String × ℕ))
  armGroups : List (List (Option String × ℕ))

/-- utils.py lines 56-120, `gen_results_tables(aad_results, arm_results)`:
for each non-empty counter, pop the `None` key in place and render the sorted
items — the ARM items chunked by `chunk(sorted(...), len(arm_results) // 3 + 1)`
into column tables.  Returns the rendered row data together with both
counters as the caller observes them after the call. -/
def gen_results_tables (aad_results arm_results : List (Option String × ℕ)) :
    ResultsTables × List (Option String × ℕ) × List (Option String × ℕ) :=
  let aad1 := if aad_results ≠ [] then dictPopNone aad_results else aad_results
  let arm1 := if arm_results ≠ [] then dictPopNone arm_results else arm_results
  let aadRows := if aad_results ≠ [] then some (pySorted aad1) else none
  let armGroups :=
    if arm_results ≠ [] then chunkListPos (pySorted arm1) (arm1.length / 3 + 1) else []
  (⟨aadRows, armGroups⟩, aad1, arm1)

theorem rangeLen_zero {s : ℕ} (hs : 0 < s) : rangeLen 0 s = 0 := by
  unfold rangeLen
  exact Nat.div_eq_of_lt (by omega)

theorem chunkListPos_nil {α : Type _} (s : ℕ) (hs : 0 < s) :
    chunkListPos ([] : List α) s = [] := by
  simp [chunkListPos, pyRange, rangeLen_zero hs]

theorem rangeLen_pos {L s : ℕ} (hs : 0 < s) (hL : 0 < L) : 0 < rangeLen L s := by
  unfold rangeLen
  exact Nat.div_pos (by omega) hs

theorem rangeLen_eq {L s : ℕ} (hs : 0 < s) (hL : 0 < L) :
    rangeLen L s = (L - 1) / s + 1 := by
  unfold rangeLen
  have h1 : L + s - 1 = (L - 1) + s := by omega
  rw [h1, Nat.add_div_right _ hs]

theorem rangeLen_sub {L s : ℕ} (hs : 0 < s) (hL : 0 < L) :
    rangeLen (L - s) s = rangeLen L s - 1 := by
  rcases le_or_lt L s with h | h
  · have h0 : L - s = 0 := by omega
    have h2 : (L - 1) / s = 0 := Nat.div_eq_of_lt (by omega)
    rw [h0, rangeLen_zero hs, rangeLen_eq hs hL, h2]
  · rw [rangeLen_eq hs (by omega), rangeLen_eq hs hL]
    have h1 : L - 1 = (L - s - 1) + s := by omega
    rw [h1, Nat.add_div_right _ hs]
    exact (Nat.add_sub_cancel _ _).symm

theorem chunkListPos_cons {α : Type _} (data : List α) (s : ℕ) (hs : 0 < s) (hd : data ≠ []) :
    chunkListPos data s = data.take s :: chunkListPos (data.drop s) s := by
  have hL : 0 < data.length := List.length_pos.mpr hd
  have hn : rangeLen data.length s = rangeLen (data.length - s) s + 1 := by
    have h1 := rangeLen_sub hs hL
    have h2 := rangeLen_pos hs hL
    omega
  unfold chunkListPos pyRange
  rw [List.length_drop, hn, List.range_succ_eq_map]
  simp only [List.map_cons, List.map_map, Nat.zero_mul]
  refine List.cons_eq_cons.mpr ⟨by simp [pySlice], List.map_congr_left fun i hi => ?_⟩
  have h4 : (i + 1) * s = s + i * s := by ring
  simp only [Function.comp_apply, pySlice, List.drop_drop, h4]

theorem chunkListPos_flatten {α : Type _} (s : ℕ) (hs : 0 < s) (data : List α) :
    (chunkListPos data s).flatten = data := by
  generalize hL : data.length = L
  induction L using Nat.strong_induction_on generalizing data with
  | _ L ih =>
    cases data with
    | nil => simp [chunkListPos_nil s hs]
    | cons x xs =>
      rw [chunkListPos_cons _ s hs (by simp), List.flatten_cons,
        ih ((x :: xs).drop s).length ?_ _ rfl, List.take_append_drop]
      subst hL
      simp only [List.length_drop, List.length_cons]
      omega

theorem chunkListPos_length {α : Type _} (data : List α) (s : ℕ) :
    (chunkListPos data s).length = rangeLen data.length s := by
  simp [chunkListPos, pyRange]

theorem chunkListPos_size_le {α : Type _} (data : List α) (s : ℕ) :
    ∀ c ∈ chunkListPos data s, c.length ≤ s := by
  intro c hc
  simp only [chunkListPos, pyRange, List.map_map, List.mem_map] at hc
  obtain ⟨idx, _, rfl⟩ := hc
  simp only [Function.comp, pySlice]
  exact (List.length_take_le _ _).trans (le_refl s)

theorem chunkListPos_get {α : Type _} (data : List α) (s i : ℕ)
    (h : i < (chunkListPos data s).length) :
    (chunkListPos data s).get ⟨i, h⟩ = pySlice data (i * s) s := by
  simp [chunkListPos, pyRange, List.get_eq_getElem, List.getElem_map, List.getElem_range]

theorem chunkListPos_sizes {α : Type _} (data : List α) (s : ℕ) (hs : 0 < s)
    (i : ℕ) (h : i + 1 < (chunkListPos data s).length) :
    ((chunkListPos data s).get ⟨i, Nat.lt_of_succ_lt h⟩).length = s := by
  rw [chunkListPos_get]
  have hlen := chunkListPos_length data s
  have hdiv : i + 2 ≤ (data.length + s - 1) / s := by
    rw [hlen] at h
    unfold rangeLen at h
    omega
  have h2 : (i + 2) * s ≤ data.length + s - 1 := (Nat.le_div_iff_mul_le hs).mp hdiv
  have h3 : i * s + s + s ≤ data.length + s - 1 := by
    calc i * s + s + s = (i + 2) * s := by ring
    _ ≤ data.length + s - 1 := h2
  unfold pySlice
  rw [List.length_take, List.length_drop]
  generalize i * s = a at h3 ⊢
  omega

/-- C2: for every list input and positive size, `chunk` runs without error and
yields exactly `ceil(L / size)` chunks, each a contiguous slice of length at
most `size`, every chunk before the last of length exactly `size`, whose
concatenation is the original list; an empty input yields zero chunks. -/
theorem chunk_list_coverage {α : Type _} (data : List α) (size : ℤ) (hs : 0 < size) :
    chunkListRun data size = .ok (chunkListPos data size.toNat) ∧
    (chunkListPos data size.toNat).length = (data.length + size.toNat - 1) / size.toNat ∧
    (chunkListPos data size.toNat).flatten = data ∧
    (∀ c ∈ chunkListPos data size.toNat, c.length ≤ size.toNat) ∧
    (∀ i (h : i + 1 < (chunkListPos data size.toNat).length),
      ((chunkListPos data size.toNat).get ⟨i, Nat.lt_of_succ_lt h⟩).length = size.toNat) ∧
    (data = [] → chunkListPos data size.toNat = []) := by
  have hs' : 0 < size.toNat := by omega
  refine ⟨?_, chunkListPos_length data size.toNat, chunkListPos_flatten _ hs' data,
    chunkListPos_size_le data size.toNat,
    fun i h => chunkListPos_sizes data _ hs' i h, ?_⟩
  · unfold chunkListRun
    rw [if_neg (by omega), if_neg (by omega)]
  · intro h
    subst h
    exact chunkListPos_nil _ hs'

/-- Witness for C2 at the concrete list `[10, 20, 30]` with size `2`. -/
theorem chunk_list_coverage_witness :
    chunkListRun [10, 20, 30] 2 = .ok (chunkListPos [10, 20, 30] 2) ∧
    (chunkListPos [10, 20, 30] 2).flatten = [10, 20, 30] := by
  have h := chunk_list_coverage [10, 20, 30] 2 (by decide)
  exact ⟨h.1, h.2.2.1⟩

/-- C1 (failing input): on the dict `0 ↦ 1, 1 ↦ 2, 2 ↦ 3` with size `2`,
`chunk` yields the first two entries twice — `islice(data, size)` restarts at
the first key on every iteration — so key `2` appears in no chunk and the
union of the chunks does not reproduce the mapping. -/
theorem chunk_dict_repeats_first_slice :
    chunkDictRun [(0, 1), (1, 2), (2, 3)] 2 =
      .ok [[(0, 1), (1, 2)], [(0, 1), (1, 2)]] := by rfl

/-- C3 (failing input): on the dict `0 ↦ 10, 1 ↦ 20` with size `1`, `chunk`
yields the first entry twice instead of one chunk per entry. -/
theorem chunk_dict_size_one_repeats :
    chunkDictRun [(0, 10), (1, 20)] 1 = .ok [[(0, 10)], [(0, 10)]] := by rfl

/-- C4 counterexample: with size `-1` on a non-empty list the generator
produces no chunks and raises no error at all — the call is not rejected with
an invalid-argument error. -/
theorem chunk_negative_size_counterexample :
    chunkListRun ([1, 2] : List ℕ) (-1) = .ok [] := by rfl

/-- C4 (amended): for `size = 0` the generator raises `ValueError` (from
`range`) when first consumed, before yielding any chunk; for `size < 0` it
yields zero chunks and raises no error, on list and dict inputs alike. -/
theorem chunk_nonpositive_size {α K V : Type _} [DecidableEq K]
    (data : List α) (kvs : List (K × V)) (size : ℤ) (hs : size ≤ 0) :
    chunkListRun data size = (if size = 0 then .error .valueError else .ok []) ∧
    chunkDictRun kvs size = (if size = 0 then .error .valueError else .ok []) := by
  by_cases h : size = 0
  · subst h
    simp [chunkListRun, chunkDictRun]
  · have hneg : size < 0 := by omega
    simp [chunkListRun, chunkDictRun, if_neg h, if_pos hneg]

/-- Witness for C4 (amended) at size `0` on concrete inputs. -/
theorem chunk_nonpositive_size_witness :
    chunkListRun ([5, 6] : List ℕ) 0 = .error .valueError ∧
    chunkDictRun ([(1, 2)] : List (ℕ × ℕ)) 0 = .error .valueError := by
  have h := chunk_nonpositive_size ([5, 6] : List ℕ) ([(1, 2)] : List (ℕ × ℕ)) 0 (by decide)
  simpa using h

theorem beBytes_length (w n : ℕ) : (beBytes w n).length = w := by
  induction w generalizing n with
  | zero => rfl
  | succ w ih => simp [beBytes, ih]

theorem beVal_snoc (l : List ℕ) (b : ℕ) : beVal (l ++ [b]) = beVal l * 256 + b := by
  unfold beVal
  rw [List.foldl_append]
  rfl

theorem beVal_beBytes {w n : ℕ} (h : n < 256 ^ w) : beVal (beBytes w n) = n := by
  induction w generalizing n with
  | zero =>
    simp [beBytes, beVal]
    omega
  | succ w ih =>
    rw [beBytes, beVal_snoc, ih (n := n / 256) ?_]
    · omega
    · rw [Nat.div_lt_iff_lt_mul (by norm_num)]
      calc n < 256 ^ (w + 1) := h
      _ = 256 ^ w * 256 := by ring

theorem readBytes_exact {w : ℕ} {l rest : List ℕ} (h : l.length = w) :
    readBytes w (l ++ rest) = some (l, rest) := by
  subst h
  unfold readBytes
  rw [if_pos (by simp)]
  simp

theorem sdecode_one (n : ℤ) (hlo : -128 ≤ n) (hhi : n < 0) : sdecode 1 (n + 256).toNat = n := by
  simp only [sdecode]
  norm_num
  split <;> omega

theorem sdecode_two (n : ℤ) (hlo : -32768 ≤ n) (hhi : n < 0) :
    sdecode 2 (n + 65536).toNat = n := by
  simp only [sdecode]
  norm_num
  split <;> omega

theorem sdecode_four (n : ℤ) (hlo : -2147483648 ≤ n) (hhi : n < 0) :
    sdecode 4 (n + 4294967296).toNat = n := by
  simp only [sdecode]
  norm_num
  split <;> omega

theorem sdecode_eight (n : ℤ) (hlo : -9223372036854775808 ≤ n) (hhi : n < 0) :
    sdecode 8 (n + 18446744073709551616).toNat = n := by
  simp only [sdecode]
  norm_num
  split <;> omega

theorem loadVal_encInt {n : ℤ} {out : List ℕ} (h : encInt n = .ok out)
    (rest : List ℕ) (f : ℕ) :
    loadVal (f + 1) (out ++ rest) = some (.int n, rest) := by
  unfold encInt at h
  split_ifs at h with h1 h2 h3 h4 h5 h6 h7 h8 h9 h10 h11
  · injection h with h; subst h
    simp [loadVal, h2, Int.toNat_of_nonneg h1]
  · injection h with h; subst h
    simp [loadVal, readBytes, beVal, Int.toNat_of_nonneg h1]
  · injection h with h; subst h
    have hv : n.toNat < 256 ^ 2 := by norm_num; omega
    simp [loadVal, readBytes_exact, beBytes_length, beVal_beBytes hv, Int.toNat_of_nonneg h1]
  · injection h with h; subst h
    have hv : n.toNat < 256 ^ 4 := by norm_num; omega
    simp [loadVal, readBytes_exact, beBytes_length, beVal_beBytes hv, Int.toNat_of_nonneg h1]
  · injection h with h; subst h
    have hv : n.toNat < 256 ^ 8 := by norm_num; omega
    simp [loadVal, readBytes_exact, beBytes_length, beVal_beBytes hv, Int.toNat_of_nonneg h1]
  · injection h with h; subst h
    simp [loadVal, (show ¬((n + 256).toNat ≤ 127) from by omega),
      (show 224 ≤ (n + 256).toNat from by omega), (show (n + 256).toNat ≤ 255 from by omega),
      (show ((n + 256).toNat : ℤ) = n + 256 from by omega)]
  · injection h with h; subst h
    simp [loadVal, readBytes, beVal, sdecode_one n (by omega) (by omega)]
  · injection h with h; subst h
    have hv : (n + 65536).toNat < 256 ^ 2 := by norm_num; omega
    simp [loadVal, readBytes_exact, beBytes_length, beVal_beBytes hv,
      sdecode_two n (by omega) (by omega)]
  · injection h with h; subst h
    have hv : (n + 4294967296).toNat < 256 ^ 4 := by norm_num; omega
    simp [loadVal, readBytes_exact, beBytes_length, beVal_beBytes hv,
      sdecode_four n (by omega) (by omega)]
  · injection h with h; subst h
    have hv : (n + 18446744073709551616).toNat < 256 ^ 8 := by norm_num; omega
    simp [loadVal, readBytes_exact, beBytes_length, beVal_beBytes hv,
      sdecode_eight n (by omega) (by omega)]

theorem loadVal_encStr {s hdr : List ℕ} (h : encStrHeader s.length = .ok hdr)
    (rest : List ℕ) (f : ℕ) :
    loadVal (f + 1) (hdr ++ (s ++ rest)) = some (.str s, rest) := by
  unfold encStrHeader at h
  split_ifs at h with h1 h2 h3 h4
  · injection h with h; subst h
    simp [loadVal, (show ¬(160 + s.length ≤ 127) from by omega),
      (show ¬(224 ≤ 160 + s.length ∧ 160 + s.length ≤ 255) from by omega),
      (show ¬(160 + s.length ≤ 143) from by omega),
      (show ¬(160 + s.length ≤ 159) from by omega),
      (show 160 + s.length ≤ 191 from by omega),
      readBytes_exact]
  · injection h with h; subst h
    simp [loadVal, readBytes, beVal, readBytes_exact]
  · injection h with h; subst h
    have hv : s.length < 256 ^ 2 := by norm_num; omega
    simp [loadVal, readBytes_exact, beBytes_length, beVal_beBytes hv]
  · injection h with h; subst h
    have hv : s.length < 256 ^ 4 := by norm_num; omega
    simp [loadVal, readBytes_exact, beBytes_length, beVal_beBytes hv]

theorem loadVal_encBin {s hdr : List ℕ} (h : encBinHeader s.length = .ok hdr)
    (rest : List ℕ) (f : ℕ) :
    loadVal (f + 1) (hdr ++ (s ++ rest)) = some (.bin s, rest) := by
  unfold encBinHeader at h
  split_ifs at h with h1 h2 h3
  · injection h with h; subst h
    simp [loadVal, readBytes, beVal, readBytes_exact]
  · injection h with h; subst h
    have hv : s.length < 256 ^ 2 := by norm_num; omega
    simp [loadVal, readBytes_exact, beBytes_length, beVal_beBytes hv]
  · injection h with h; subst h
    have hv : s.length < 256 ^ 4 := by norm_num; omega
    simp [loadVal, readBytes_exact, beBytes_length, beVal_beBytes hv]

theorem loadVal_encArr {xs : List MVal} {hdr : List ℕ} (h : encArrHeader xs.length = .ok hdr)
    {body rest : List ℕ} {f : ℕ}
    (hbody : loadItems f xs.length (body ++ rest) = some (xs, rest)) :
    loadVal (f + 1) (hdr ++ (body ++ rest)) = some (.arr xs, rest) := by
  unfold encArrHeader at h
  split_ifs at h with h1 h2 h3
  · injection h with h; subst h
    simp [loadVal, (show ¬(144 + xs.length ≤ 127) from by omega),
      (show ¬(224 ≤ 144 + xs.length ∧ 144 + xs.length ≤ 255) from by omega),
      (show ¬(144 + xs.length ≤ 143) from by omega),
      (show 144 + xs.length ≤ 159 from by omega), hbody]
  · injection h with h; subst h
    have hv : xs.length < 256 ^ 2 := by norm_num; omega
    simp [loadVal, readBytes_exact, beBytes_length, beVal_beBytes hv, hbody]
  · injection h with h; subst h
    have hv : xs.length < 256 ^ 4 := by norm_num; omega
    simp [loadVal, readBytes_exact, beBytes_length, beVal_beBytes hv, hbody]

theorem loadVal_encMap {kvs : List (MVal × MVal)} {hdr : List ℕ}
    (h : encMapHeader kvs.length = .ok hdr) {body rest : List ℕ} {f : ℕ}
    (hbody : loadPairs f kvs.length (body ++ rest) = some (kvs, rest)) :
    loadVal (f + 1) (hdr ++ (body ++ rest)) = some (.dict kvs, rest) := by
  unfold encMapHeader at h
  split_ifs at h with h1 h2 h3
  · injection h with h; subst h
    simp [loadVal, (show ¬(128 + kvs.length ≤ 127) from by omega),
      (show ¬(224 ≤ 128 + kvs.length ∧ 128 + kvs.length ≤ 255) from by omega),
      (show 128 + kvs.length ≤ 143 from by omega), hbody]
  · injection h with h; subst h
    have hv : kvs.length < 256 ^ 2 := by norm_num; omega
    simp [loadVal, readBytes_exact, beBytes_length, beVal_beBytes hv, hbody]
  · injection h with h; subst h
    have hv : kvs.length < 256 ^ 4 := by norm_num; omega
    simp [loadVal, readBytes_exact, beBytes_length, beVal_beBytes hv, hbody]

theorem mdepth_pos (v : MVal) : 1 ≤ mdepth v := by
  cases v <;> simp [mdepth]

theorem exceptBind_ok {ε α β : Type _} {x : Except ε α} {g : α → Except ε β} {b : β}
    (h : (x >>= g) = .ok b) : ∃ a, x = .ok a ∧ g a = .ok b := by
  cases x with
  | error e => exact absurd h (by simp [Bind.bind, Except.bind])
  | ok a => exact ⟨a, rfl, by simpa [Bind.bind, Except.bind] using h⟩

mutual

theorem loadVal_dumps : ∀ (v : MVal) (out : List ℕ), dumps v = .ok out →
    ∀ (rest : List ℕ) (fuel : ℕ), mdepth v ≤ fuel → loadVal fuel (out ++ rest) = some (v, rest)
  | .nil, out, h, rest, fuel, hf => by
    obtain ⟨f, rfl⟩ : ∃ f, fuel = f + 1 := ⟨fuel - 1, by simp [mdepth] at hf; omega⟩
    simp only [dumps] at h
    injection h with h
    subst h
    simp [loadVal]
  | .boolean b, out, h, rest, fuel, hf => by
    obtain ⟨f, rfl⟩ : ∃ f, fuel = f + 1 := ⟨fuel - 1, by simp [mdepth] at hf; omega⟩
    simp only [dumps] at h
    injection h with h
    subst h
    cases b <;> simp [loadVal]
  | .int n, out, h, rest, fuel, hf => by
    obtain ⟨f, rfl⟩ : ∃ f, fuel = f + 1 := ⟨fuel - 1, by simp [mdepth] at hf; omega⟩
    exact loadVal_encInt h rest f
  | .str s, out, h, rest, fuel, hf => by
    obtain ⟨f, rfl⟩ : ∃ f, fuel = f + 1 := ⟨fuel - 1, by simp [mdepth] at hf; omega⟩
    simp only [dumps] at h
    obtain ⟨hdr, hh, h⟩ := exceptBind_ok h
    simp only [pure, Except.pure] at h
    injection h with h
    subst h
    rw [List.append_assoc]
    exact loadVal_encStr hh rest f
  | .bin s, out, h, rest, fuel, hf => by
    obtain ⟨f, rfl⟩ : ∃ f, fuel = f + 1 := ⟨fuel - 1, by simp [mdepth] at hf; omega⟩
    simp only [dumps] at h
    obtain ⟨hdr, hh, h⟩ := exceptBind_ok h
    simp only [pure, Except.pure] at h
    injection h with h
    subst h
    rw [List.append_assoc]
    exact loadVal_encBin hh rest f
  | .arr xs, out, h, rest, fuel, hf => by
    obtain ⟨f, rfl⟩ : ∃ f, fuel = f + 1 := ⟨fuel - 1, by simp [mdepth] at hf; omega⟩
    simp only [dumps] at h
    obtain ⟨hdr, hh, h⟩ := exceptBind_ok h
    obtain ⟨body, hb, h⟩ := exceptBind_ok h
    simp only [pure, Except.pure] at h
    injection h with h
    subst h
    rw [List.append_assoc]
    exact loadVal_encArr hh
      (loadItems_dumpsList xs body hb rest f (by simp [mdepth] at hf; omega))
  | .dict kvs, out, h, rest, fuel, hf => by
    obtain ⟨f, rfl⟩ : ∃ f, fuel = f + 1 := ⟨fuel - 1, by simp [mdepth] at hf; omega⟩
    simp only [dumps] at h
    obtain ⟨hdr, hh, h⟩ := exceptBind_ok h
    obtain ⟨body, hb, h⟩ := exceptBind_ok h
    simp only [pure, Except.pure] at h
    injection h with h
    subst h
    rw [List.append_assoc]
    exact loadVal_encMap hh
      (loadPairs_dumpsPairs kvs body hb rest f (by simp [mdepth] at hf; omega))
  | .obj, out, h, rest, fuel, hf => by
    exact absurd h (by simp [dumps])

theorem loadItems_dumpsList : ∀ (xs : List MVal) (out : List ℕ), dumpsList xs = .ok out →
    ∀ (rest : List ℕ) (f : ℕ), mdepthList xs ≤ f →
    loadItems f xs.length (out ++ rest) = some (xs, rest)
  | [], out, h, rest, f, hf => by
    simp only [dumpsList] at h
    injection h with h
    subst h
    simp [loadItems]
  | x :: xs, out, h, rest, f, hf => by
    simp only [dumpsList] at h
    obtain ⟨bx, hx, h⟩ := exceptBind_ok h
    obtain ⟨bxs, hxs, h⟩ := exceptBind_ok h
    simp only [pure, Except.pure] at h
    injection h with h
    subst h
    have hfx : mdepth x ≤ f := by simp [mdepthList] at hf; omega
    have hfxs : mdepthList xs ≤ f := by simp [mdepthList] at hf; omega
    simp [loadItems, List.append_assoc, loadVal_dumps x bx hx (bxs ++ rest) f hfx,
      loadItems_dumpsList xs bxs hxs rest f hfxs]

theorem loadPairs_dumpsPairs : ∀ (kvs : List (MVal × MVal)) (out : List ℕ),
    dumpsPairs kvs = .ok out → ∀ (rest : List ℕ) (f : ℕ), mdepthPairs kvs ≤ f →
    loadPairs f kvs.length (out ++ rest) = some (kvs, rest)
  | [], out, h, rest, f, hf => by
    simp only [dumpsPairs] at h
    injection h with h
    subst h
    simp [loadPairs]
  | (k, v) :: kvs, out, h, rest, f, hf => by
    simp only [dumpsPairs] at h
    obtain ⟨bk, hk, h⟩ := exceptBind_ok h
    obtain ⟨bv, hv, h⟩ := exceptBind_ok h
    obtain ⟨bkvs, hkvs, h⟩ := exceptBind_ok h
    simp only [pure, Except.pure] at h
    injection h with h
    subst h
    have hfk : mdepth k ≤ f := by simp [mdepthPairs] at hf; omega
    have hfv : mdepth v ≤ f := by simp [mdepthPairs] at hf; omega
    have hfkvs : mdepthPairs kvs ≤ f := by simp [mdepthPairs] at hf; omega
    simp [loadPairs, List.append_assoc, loadVal_dumps k bk hk (bv ++ (bkvs ++ rest)) f hfk,
      loadVal_dumps v bv hv (bkvs ++ rest) f hfv,
      loadPairs_dumpsPairs kvs bkvs hkvs rest f hfkvs]

end

theorem encInt_ok_pos {n : ℤ} {out : List ℕ} (h : encInt n = .ok out) : 0 < out.length := by
  unfold encInt at h
  split_ifs at h <;> (injection h with h; subst h; simp)

theorem encStrHeader_ok_pos {n : ℕ} {out : List ℕ} (h : encStrHeader n = .ok out) :
    0 < out.length := by
  unfold encStrHeader at h
  split_ifs at h <;> (injection h with h; subst h; simp)

theorem encBinHeader_ok_pos {n : ℕ} {out : List ℕ} (h : encBinHeader n = .ok out) :
    0 < out.length := by
  unfold encBinHeader at h
  split_ifs at h <;> (injection h with h; subst h; simp)

theorem encArrHeader_ok_pos {n : ℕ} {out : List ℕ} (h : encArrHeader n = .ok out) :
    0 < out.length := by
  unfold encArrHeader at h
  split_ifs at h <;> (injection h with h; subst h; simp)

theorem encMapHeader_ok_pos {n : ℕ} {out : List ℕ} (h : encMapHeader n = .ok out) :
    0 < out.length := by
  unfold encMapHeader at h
  split_ifs at h <;> (injection h with h; subst h; simp)

mutual

theorem mdepth_le_length : ∀ (v : MVal) (out : List ℕ), dumps v = .ok out →
    mdepth v ≤ out.length
  | .nil, out, h => by
    simp only [dumps] at h
    injection h with h
    subst h
    simp [mdepth]
  | .boolean b, out, h => by
    simp only [dumps] at h
    injection h with h
    subst h
    simp [mdepth]
  | .int n, out, h => by
    have h1 := encInt_ok_pos h
    simp only [mdepth]
    omega
  | .str s, out, h => by
    simp only [dumps] at h
    obtain ⟨hdr, hh, h⟩ := exceptBind_ok h
    simp only [pure, Except.pure] at h
    injection h with h
    subst h
    have h1 := encStrHeader_ok_pos hh
    simp only [mdepth, List.length_append]
    omega
  | .bin s, out, h => by
    simp only [dumps] at h
    obtain ⟨hdr, hh, h⟩ := exceptBind_ok h
    simp only [pure, Except.pure] at h
    injection h with h
    subst h
    have h1 := encBinHeader_ok_pos hh
    simp only [mdepth, List.length_append]
    omega
  | .arr xs, out, h => by
    simp only [dumps] at h
    obtain ⟨hdr, hh, h⟩ := exceptBind_ok h
    obtain ⟨body, hb, h⟩ := exceptBind_ok h
    simp only [pure, Except.pure] at h
    injection h with h
    subst h
    have h1 := encArrHeader_ok_pos hh
    have h2 := mdepthList_le_length xs body hb
    simp only [mdepth, List.length_append]
    omega
  | .dict kvs, out, h => by
    simp only [dumps] at h
    obtain ⟨hdr, hh, h⟩ := exceptBind_ok h
    obtain ⟨body, hb, h⟩ := exceptBind_ok h
    simp only [pure, Except.pure] at h
    injection h with h
    subst h
    have h1 := encMapHeader_ok_pos hh
    have h2 := mdepthPairs_le_length kvs body hb
    simp only [mdepth, List.length_append]
    omega
  | .obj, out, h => by
    exact absurd h (by simp [dumps])

theorem mdepthList_le_length : ∀ (xs : List MVal) (out : List ℕ), dumpsList xs = .ok out →
    mdepthList xs ≤ out.length
  | [], out, h => by
    simp only [dumpsList] at h
    injection h with h
    subst h
    simp [mdepthList]
  | x :: xs, out, h => by
    simp only [dumpsList] at h
    obtain ⟨bx, hx, h⟩ := exceptBind_ok h
    obtain ⟨bxs, hxs, h⟩ := exceptBind_ok h
    simp only [pure, Except.pure] at h
    injection h with h
    subst h
    have h1 := mdepth_le_length x bx hx
    have h2 := mdepthList_le_length xs bxs hxs
    simp only [mdepthList, List.length_append]
    omega

theorem mdepthPairs_le_length : ∀ (kvs : List (MVal × MVal)) (out : List ℕ),
    dumpsPairs kvs = .ok out → mdepthPairs kvs ≤ out.length
  | [], out, h => by
    simp only [dumpsPairs] at h
    injection h with h
    subst h
    simp [mdepthPairs]
  | (k, v) :: kvs, out, h => by
    simp only [dumpsPairs] at h
    obtain ⟨bk, hk, h⟩ := exceptBind_ok h
    obtain ⟨bv, hv, h⟩ := exceptBind_ok h
    obtain ⟨bkvs, hkvs, h⟩ := exceptBind_ok h
    simp only [pure, Except.pure] at h
    injection h with h
    subst h
    have h1 := mdepth_le_length k bk hk
    have h2 := mdepth_le_length v bv hv
    have h3 := mdepthPairs_le_length kvs bkvs hkvs
    simp only [mdepthPairs, List.length_append]
    omega

end

/-- The serialize-then-deserialize round trip is the identity on every value
the codec accepts. -/
theorem loads_dumps {v : MVal} {out : List ℕ} (h : dumps v = .ok out) : loads out = some v := by
  unfold loads
  have h1 := loadVal_dumps v out h [] (out.length + 1)
    (by have := mdepth_le_length v out h; omega)
  rw [List.append_nil] at h1
  rw [h1]

theorem SerErr.toPy_ne_op (e : SerErr) : e.toPy ≠ PyErr.operationalError := by
  cases e <;> simp [SerErr.toPy]

theorem schemaCreate_parts (env : Env) (st : WState) :
    ((schemaCreate env st).1 = none ∨ (schemaCreate env st).1 = some .dbFatal) ∧
    (schemaCreate env st).2.record = st.record ∧
    (schemaCreate env st).2.rows = st.rows ∧
    (st.tableExists = true → (schemaCreate env st).2.tableExists = true) := by
  unfold schemaCreate
  split
  · simp
  · cases env.createConn <;> cases env.createExec <;> cases env.createCommit <;> simp

theorem writeLoop_const (env : Env) : ∀ (fuel k : ℕ) (st : WState),
    (writeLoop env fuel k st).2.record = st.record ∧
    (writeLoop env fuel k st).2.tableExists = st.tableExists ∧
    (writeLoop env fuel k st).2.fileExists = st.fileExists
  | 0, k, st => by simp [writeLoop]
  | fuel + 1, k, st => by
    simp only [writeLoop]
    cases hd : dumps st.record with
    | error e => simp
    | ok payload =>
      cases hins : (if st.tableExists then (env.attempts k).1 else DbOut.opErr) with
      | fatal => simp
      | opErr => exact writeLoop_const env fuel (k + 1) st
      | ok =>
        cases hcom : (env.attempts k).2 with
        | fatal => simp
        | opErr =>
          simpa using writeLoop_const env fuel (k + 1)
            { st with pending := st.pending ++ [payload] }
        | ok => simp

theorem writeLoop_no_opErr (env : Env) : ∀ (fuel k : ℕ) (st : WState),
    (writeLoop env fuel k st).1 ≠ .raised .operationalError
  | 0, k, st => by simp [writeLoop]
  | fuel + 1, k, st => by
    simp only [writeLoop]
    cases hd : dumps st.record with
    | error e => simpa using SerErr.toPy_ne_op e
    | ok payload =>
      cases hins : (if st.tableExists then (env.attempts k).1 else DbOut.opErr) with
      | fatal => simp
      | opErr => exact writeLoop_no_opErr env fuel (k + 1) st
      | ok =>
        cases hcom : (env.attempts k).2 with
        | fatal => simp
        | opErr =>
          exact writeLoop_no_opErr env fuel (k + 1) { st with pending := st.pending ++ [payload] }
        | ok => simp

theorem writeLoop_success (env : Env) : ∀ (fuel k : ℕ) (st : WState),
    (writeLoop env fuel k st).1 = .success →
    ∃ j, k ≤ j ∧ j < k + fuel ∧ attemptIns st.tableExists env j = .ok ∧
      (env.attempts j).2 = .ok ∧ ∀ i, k ≤ i → i < j → attemptLocks st.tableExists env i
  | 0, k, st => by simp [writeLoop]
  | fuel + 1, k, st => by
    simp only [writeLoop]
    cases hd : dumps st.record with
    | error e => simp
    | ok payload =>
      cases hins : (if st.tableExists then (env.attempts k).1 else DbOut.opErr) with
      | fatal => simp
      | opErr =>
        intro hs
        obtain ⟨j, hj1, hj2, hj3, hj4, hj5⟩ := writeLoop_success env fuel (k + 1) st hs
        refine ⟨j, by omega, by omega, hj3, hj4, ?_⟩
        intro i hi1 hi2
        rcases Nat.eq_or_lt_of_le hi1 with h | h
        · subst h
          exact Or.inl hins
        · exact hj5 i h hi2
      | ok =>
        cases hcom : (env.attempts k).2 with
        | fatal => simp
        | opErr =>
          intro hs
          obtain ⟨j, hj1, hj2, hj3, hj4, hj5⟩ := writeLoop_success env fuel (k + 1)
            { st with pending := st.pending ++ [payload] } hs
          refine ⟨j, by omega, by omega, hj3, hj4, ?_⟩
          intro i hi1 hi2
          rcases Nat.eq_or_lt_of_le hi1 with h | h
          · subst h
            exact Or.inr ⟨hins, hcom⟩
          · exact hj5 i h hi2
        | ok =>
          intro _
          exact ⟨k, le_refl k, by omega, hins, hcom,
            fun i hi1 hi2 => absurd hi2 (by omega)⟩

theorem writeLoop_all_locks (env : Env) : ∀ (fuel k : ℕ) (st : WState) (bs : List ℕ),
    dumps st.record = .ok bs → (∀ j, attemptLocks st.tableExists env j) →
    (writeLoop env fuel k st).1 = .running
  | 0, k, st, bs => by simp [writeLoop]
  | fuel + 1, k, st, bs => by
    intro hd hl
    simp only [writeLoop, hd]
    rcases hl k with h | ⟨h1, h2⟩
    · have h' : (if st.tableExists then (env.attempts k).1 else DbOut.opErr) = .opErr := h
      rw [h']
      exact writeLoop_all_locks env fuel (k + 1) st bs hd hl
    · have h1' : (if st.tableExists then (env.attempts k).1 else DbOut.opErr) = .ok := h1
      rw [h1', h2]
      exact writeLoop_all_locks env fuel (k + 1) { st with pending := st.pending ++ [bs] } bs hd hl

theorem writeLoop_success_row (env : Env) : ∀ (fuel k : ℕ) (st : WState) (bs : List ℕ),
    dumps st.record = .ok bs → (writeLoop env fuel k st).1 = .success →
    bs ∈ (writeLoop env fuel k st).2.rows
  | 0, k, st, bs => by simp [writeLoop]
  | fuel + 1, k, st, bs => by
    intro hd
    simp only [writeLoop, hd]
    cases hins : (if st.tableExists then (env.attempts k).1 else DbOut.opErr) with
    | fatal => simp
    | opErr => exact writeLoop_success_row env fuel (k + 1) st bs hd
    | ok =>
      cases hcom : (env.attempts k).2 with
      | fatal => simp
      | opErr =>
        exact writeLoop_success_row env fuel (k + 1)
          { st with pending := st.pending ++ [bs] } bs hd
      | ok =>
        intro _
        simp

theorem writeLoop_rows_from (env : Env) : ∀ (fuel k : ℕ) (st : WState) (b : List ℕ),
    (∀ p ∈ st.pending, dumps st.record = .ok p) →
    b ∈ (writeLoop env fuel k st).2.rows →
    b ∈ st.rows ∨ dumps st.record = .ok b
  | 0, k, st, b => by
    intro hp hb
    exact Or.inl (by simpa [writeLoop] using hb)
  | fuel + 1, k, st, b => by
    intro hp
    simp only [writeLoop]
    cases hd : dumps st.record with
    | error e =>
      intro hb
      exact Or.inl (by simpa using hb)
    | ok payload =>
      cases hins : (if st.tableExists then (env.attempts k).1 else DbOut.opErr) with
      | fatal =>
        intro hb
        exact Or.inl (by simpa using hb)
      | opErr =>
        intro hb
        rcases writeLoop_rows_from env fuel (k + 1) st b hp (by simpa using hb) with h | h
        · exact Or.inl h
        · rw [hd] at h
          exact Or.inr h
      | ok =>
        cases hcom : (env.attempts k).2 with
        | fatal =>
          intro hb
          exact Or.inl (by simpa using hb)
        | opErr =>
          intro hb
          have hp' : ∀ p ∈ st.pending ++ [payload], dumps st.record = .ok p := by
            intro p hmem
            rcases List.mem_append.mp hmem with h | h
            · exact hp p h
            · simp at h
              subst h
              exact hd
          rcases writeLoop_rows_from env fuel (k + 1)
              { st with pending := st.pending ++ [payload] } b hp' (by simpa using hb) with h | h
          · exact Or.inl h
          · rw [hd] at h
            exact Or.inr h
        | ok =>
          intro hb
          simp only [List.mem_append] at hb
          rcases hb with hb | hb | hb
          · exact Or.inl hb
          · rcases hp b hb with h
            rw [hd] at h
            exact Or.inr h
          · simp at hb
            subst hb
            exact Or.inr rfl

theorem writeLoop_serErr (env : Env) (fuel k : ℕ) (st : WState) (e : SerErr)
    (hd : dumps st.record = .error e) (hf : 0 < fuel) :
    writeLoop env fuel k st = (.raised e.toPy, { st with pending := [] }) := by
  cases fuel with
  | zero => omega
  | succ fuel => simp [writeLoop, hd]

theorem writeLoop_fatal (env : Env) : ∀ (fuel k j : ℕ) (st : WState) (bs : List ℕ),
    dumps st.record = .ok bs → k ≤ j → j < k + fuel →
    (∀ i, k ≤ i → i < j → attemptLocks st.tableExists env i) →
    (attemptIns st.tableExists env j = .fatal ∨
      (attemptIns st.tableExists env j = .ok ∧ (env.attempts j).2 = .fatal)) →
    (writeLoop env fuel k st).1 = .raised .dbFatal
  | 0, k, j, st, bs => by
    intro _ _ h
    omega
  | fuel + 1, k, j, st, bs => by
    intro hd hkj hjf hlocks hfat
    simp only [writeLoop, hd]
    rcases Nat.eq_or_lt_of_le hkj with heq | hlt
    · subst heq
      rcases hfat with h | ⟨h1, h2⟩
      · have h' : (if st.tableExists then (env.attempts k).1 else DbOut.opErr) = .fatal := h
        rw [h']
      · have h1' : (if st.tableExists then (env.attempts k).1 else DbOut.opErr) = .ok := h1
        rw [h1', h2]
    · have hlk := hlocks k (le_refl k) hlt
      rcases hlk with h | ⟨h1, h2⟩
      · have h' : (if st.tableExists then (env.attempts k).1 else DbOut.opErr) = .opErr := h
        rw [h']
        exact writeLoop_fatal env fuel (k + 1) j st bs hd (by omega) (by omega)
          (fun i hi1 hi2 => hlocks i (by omega) hi2) hfat
      · have h1' : (if st.tableExists then (env.attempts k).1 else DbOut.opErr) = .ok := h1
        rw [h1', h2]
        exact writeLoop_fatal env fuel (k + 1) j { st with pending := st.pending ++ [bs] } bs hd
          (by omega) (by omega) (fun i hi1 hi2 => hlocks i (by omega) hi2) hfat

/-- C5: with the connection granted, `sqlite_writer` returns success only
after a loop iteration whose insert and commit both completed, every earlier
iteration having failed only with a suppressed transient-lock error; a
transient-lock error at the insert or the commit is never surfaced to the
caller; and when every iteration hits a transient-lock error the call keeps
retrying the whole serialize-insert-commit unit and never returns, whatever
the number of observed iterations. -/
theorem sqlite_writer_retry_contract (env : Env) (fuel : ℕ) (st : WState)
    (hconn : env.writeConn = .ok) :
    ((sqlite_writer env fuel st).1 = .success →
      ∃ j, j < fuel ∧ attemptIns (schemaCreate env st).2.tableExists env j = .ok ∧
        (env.attempts j).2 = .ok ∧
        ∀ i, i < j → attemptLocks (schemaCreate env st).2.tableExists env i) ∧
    (sqlite_writer env fuel st).1 ≠ .raised .operationalError ∧
    ((schemaCreate env st).1 = none → (∃ bs, dumps st.record = .ok bs) →
      (∀ j, attemptLocks (schemaCreate env st).2.tableExists env j) →
      (sqlite_writer env fuel st).1 = .running) := by
  have hparts := schemaCreate_parts env st
  unfold sqlite_writer
  cases hsc : schemaCreate env st with
  | mk oe st1 =>
    rw [hsc] at hparts
    simp only at hparts
    cases oe with
    | some e =>
      have he : e = .dbFatal := by
        rcases hparts.1 with h | h
        · exact absurd h (by simp)
        · simpa using h
      subst he
      exact ⟨by simp, by simp, by simp⟩
    | none =>
      rw [hconn]
      refine ⟨?_, ?_, ?_⟩
      · intro hs
        obtain ⟨j, hj1, hj2, hj3, hj4, hj5⟩ :=
          writeLoop_success env fuel 0 { st1 with fileExists := true, pending := [] } hs
        exact ⟨j, by omega, hj3, hj4, fun i hi => hj5 i (by omega) hi⟩
      · exact writeLoop_no_opErr env fuel 0 _
      · intro _ hbs hl
        obtain ⟨bs, hbs⟩ := hbs
        have hrec : dumps ({ st1 with fileExists := true, pending := [] } : WState).record
            = .ok bs := by
          have h2 := hparts.2.1
          simp only
          rw [h2]
          exact hbs
        exact writeLoop_all_locks env fuel 0 _ bs hrec hl

/-- C6: schema creation is attempted only when the file does not yet exist (a
no-op when it does), the `CREATE TABLE IF NOT EXISTS` statement is idempotent
(an existing table survives, with no rows touched and no error), every
transient-lock error in the creation block is swallowed (an error surfaces
only when some creation step fails with a non-transient exception), and after
any call that returns success the table exists. -/
theorem sqlite_writer_schema (env : Env) (fuel : ℕ) (st : WState) :
    (st.fileExists = true → schemaCreate env st = (none, st)) ∧
    (st.tableExists = true → (schemaCreate env st).2.tableExists = true ∧
      (schemaCreate env st).2.rows = st.rows ∧
      (schemaCreate env st).1 ≠ some .operationalError) ∧
    (env.createConn ≠ .fatal → env.createExec ≠ .fatal → env.createCommit ≠ .fatal →
      (schemaCreate env st).1 = none) ∧
    ((sqlite_writer env fuel st).1 = .success →
      (sqlite_writer env fuel st).2.tableExists = true) := by
  refine ⟨?_, ?_, ?_, ?_⟩
  · intro h
    unfold schemaCreate
    rw [if_pos h]
  · intro h
    have hp := schemaCreate_parts env st
    refine ⟨hp.2.2.2 h, hp.2.2.1, ?_⟩
    rcases hp.1 with h1 | h1 <;> simp [h1]
  · intro h1 h2 h3
    unfold schemaCreate
    split
    · rfl
    · cases hc : env.createConn <;> cases he : env.createExec <;>
        cases hcm : env.createCommit <;> simp_all
  · unfold sqlite_writer
    cases hsc : schemaCreate env st with
    | mk oe st1 =>
      cases oe with
      | some e => simp
      | none =>
        cases hwc : env.writeConn with
        | fatal => simp
        | opErr => simp
        | ok =>
          intro hs
          obtain ⟨j, hj1, hj2, hj3, hj4, hj5⟩ :=
            writeLoop_success env fuel 0 { st1 with fileExists := true, pending := [] } hs
          have hj3' : attemptIns st1.tableExists env j = .ok := hj3
          have htbl : st1.tableExists = true := by
            cases htb : st1.tableExists
            · rw [htb] at hj3'
              simp [attemptIns] at hj3'
            · rfl
          have hconst :=
            (writeLoop_const env fuel 0 { st1 with fileExists := true, pending := [] }).2.1
          rw [hconst]
          exact htbl

/-- C7: a record the codec cannot encode surfaces its serialization error to
the caller on the first loop iteration — not retried and not suppressed — and
adds no row to the store; and a non-transient-lock driver error at the insert
or at the commit propagates to the caller immediately, ending the retry
loop. -/
theorem sqlite_writer_fatal_propagation (env : Env) (fuel : ℕ) (st : WState) :
    (∀ e : SerErr, dumps st.record = .error e → 0 < fuel → env.writeConn = .ok →
      (schemaCreate env st).1 = none →
      (sqlite_writer env fuel st).1 = .raised e.toPy ∧
      (sqlite_writer env fuel st).2.rows = st.rows) ∧
    (∀ (j : ℕ) (bs : List ℕ), dumps st.record = .ok bs → j < fuel → env.writeConn = .ok →
      (schemaCreate env st).1 = none →
      (∀ i, i < j → attemptLocks (schemaCreate env st).2.tableExists env i) →
      (attemptIns (schemaCreate env st).2.tableExists env j = .fatal ∨
        (attemptIns (schemaCreate env st).2.tableExists env j = .ok ∧
          (env.attempts j).2 = .fatal)) →
      (sqlite_writer env fuel st).1 = .raised .dbFatal) := by
  have hparts := schemaCreate_parts env st
  unfold sqlite_writer
  cases hsc : schemaCreate env st with
  | mk oe st1 =>
    rw [hsc] at hparts
    simp only at hparts
    cases oe with
    | some e =>
      constructor
      · intro e' hd hf hwc hoe
        exact absurd hoe (by simp)
      · intro j bs hd hjf hwc hoe hlocks hfat
        exact absurd hoe (by simp)
    | none =>
      constructor
      · intro e hd hf hwc hoe
        rw [hwc]
        have hd' : dumps ({ st1 with fileExists := true, pending := [] } : WState).record
            = .error e := by
          simp only
          rw [hparts.2.1]
          exact hd
        have heq := writeLoop_serErr env fuel 0
          { st1 with fileExists := true, pending := [] } e hd' hf
        constructor
        · show (writeLoop env fuel 0 { st1 with fileExists := true, pending := [] }).1
            = .raised e.toPy
          rw [heq]
        · show (writeLoop env fuel 0 { st1 with fileExists := true, pending := [] }).2.rows
            = st.rows
          rw [heq]
          exact hparts.2.2.1
      · intro j bs hd hjf hwc hoe hlocks hfat
        rw [hwc]
        have hd' : dumps ({ st1 with fileExists := true, pending := [] } : WState).record
            = .ok bs := by
          simp only
          rw [hparts.2.1]
          exact hd
        exact writeLoop_fatal env fuel 0 j _ bs hd' (by omega) (by omega)
          (fun i hi1 hi2 => hlocks i hi2) hfat

/-- C8: whenever `sqlite_writer` reports success, the store contains a row
holding `msgpack.dumps` of the record, and decoding that row with the codec
gives back exactly the original record. -/
theorem sqlite_writer_durability (env : Env) (fuel : ℕ) (st : WState)
    (h : (sqlite_writer env fuel st).1 = .success) :
    ∃ bs, dumps st.record = .ok bs ∧ bs ∈ (sqlite_writer env fuel st).2.rows ∧
      loads bs = some st.record := by
  have hparts := schemaCreate_parts env st
  revert h
  unfold sqlite_writer
  cases hsc : schemaCreate env st with
  | mk oe st1 =>
    rw [hsc] at hparts
    simp only at hparts
    cases oe with
    | some e => simp
    | none =>
      cases hwc : env.writeConn with
      | fatal => simp
      | opErr => simp
      | ok =>
        intro hs
        have hs' : (writeLoop env fuel 0 { st1 with fileExists := true, pending := [] }).1
            = .success := hs
        cases hd : dumps st.record with
        | error e =>
          have hd' : dumps ({ st1 with fileExists := true, pending := [] } : WState).record
              = .error e := by
            simp only
            rw [hparts.2.1]
            exact hd
          have hf : 0 < fuel := by
            cases fuel with
            | zero => simp [writeLoop] at hs'
            | succ fuel => omega
          rw [writeLoop_serErr env fuel 0 _ e hd' hf] at hs'
          simp at hs'
        | ok bs =>
          have hd' : dumps ({ st1 with fileExists := true, pending := [] } : WState).record
              = .ok bs := by
            simp only
            rw [hparts.2.1]
            exact hd
          have hrow := writeLoop_success_row env fuel 0 _ bs hd' hs'
          refine ⟨bs, rfl, ?_, loads_dumps hd⟩
          show bs ∈ (writeLoop env fuel 0 { st1 with fileExists := true, pending := [] }).2.rows
          exact hrow

/-- C9: `sqlite_writer` never mutates the record: the record variable is the
same before and after the call, and every row the call adds to the store is
the serialization of that unchanged record, however many retry iterations
re-serialized it. -/
theorem sqlite_writer_record_immutable (env : Env) (fuel : ℕ) (st : WState) :
    (sqlite_writer env fuel st).2.record = st.record ∧
    ∀ b, b ∈ (sqlite_writer env fuel st).2.rows →
      b ∈ st.rows ∨ dumps st.record = .ok b := by
  have hparts := schemaCreate_parts env st
  unfold sqlite_writer
  cases hsc : schemaCreate env st with
  | mk oe st1 =>
    rw [hsc] at hparts
    simp only at hparts
    cases oe with
    | some e =>
      refine ⟨hparts.2.1, fun b hb => ?_⟩
      have hb' : b ∈ st1.rows := hb
      exact Or.inl (hparts.2.2.1 ▸ hb')
    | none =>
      cases hwc : env.writeConn with
      | fatal =>
        refine ⟨hparts.2.1, fun b hb => ?_⟩
        have hb' : b ∈ st1.rows := hb
        exact Or.inl (hparts.2.2.1 ▸ hb')
      | opErr =>
        refine ⟨hparts.2.1, fun b hb => ?_⟩
        have hb' : b ∈ st1.rows := hb
        exact Or.inl (hparts.2.2.1 ▸ hb')
      | ok =>
        constructor
        · show (writeLoop env fuel 0 { st1 with fileExists := true, pending := [] }).2.record
            = st.record
          rw [(writeLoop_const env fuel 0 _).1]
          exact hparts.2.1
        · intro b hb
          have hb' : b ∈ (writeLoop env fuel 0
              { st1 with fileExists := true, pending := [] }).2.rows := hb
          rcases writeLoop_rows_from env fuel 0 _ b (by intro p hp; simp at hp) hb' with h | h
          · have h' : b ∈ st1.rows := h
            exact Or.inl (hparts.2.2.1 ▸ h')
          · right
            have h' : dumps st1.record = .ok b := h
            rw [hparts.2.1] at h'
            exact h'

/-- Witness for C5: with every operation granted, a transient-lock error is
never surfaced to the caller. -/
theorem sqlite_writer_retry_contract_witness :
    (sqlite_writer envOk 2 stOk).1 ≠ .raised .operationalError :=
  (sqlite_writer_retry_contract envOk 2 stOk rfl).2.1

/-- Witness for C6: the creation block is a no-op on an existing file, and a
successful call leaves the table existing. -/
theorem sqlite_writer_schema_witness :
    schemaCreate envOk stOk = (none, stOk) ∧
    (sqlite_writer envOk 1 stOk).2.tableExists = true :=
  ⟨(sqlite_writer_schema envOk 1 stOk).1 rfl,
    (sqlite_writer_schema envOk 1 stOk).2.2.2 rfl⟩

/-- Witness for C7: writing an unencodable record raises `TypeError` and adds
no row. -/
theorem sqlite_writer_fatal_propagation_witness :
    (sqlite_writer envOk 1 stObj).1 = .raised .typeError ∧
    (sqlite_writer envOk 1 stObj).2.rows = stObj.rows :=
  (sqlite_writer_fatal_propagation envOk 1 stObj).1 .typeError rfl (by omega) rfl rfl

/-- Witness for C8: a successful write of the nil record stores `[0xc0]`,
which decodes back to the record. -/
theorem sqlite_writer_durability_witness :
    (sqlite_writer envOk 1 stOk).1 = .success ∧
    ∃ bs, dumps stOk.record = .ok bs ∧ bs ∈ (sqlite_writer envOk 1 stOk).2.rows ∧
      loads bs = some stOk.record :=
  ⟨rfl, sqlite_writer_durability envOk 1 stOk rfl⟩

/-- Witness for C9 at a concrete call: the record is unchanged and the single
added row is its serialization. -/
theorem sqlite_writer_record_immutable_witness :
    (sqlite_writer envOk 1 stOk).2.record = stOk.record ∧
    ([192] ∈ stOk.rows ∨ dumps stOk.record = .ok [192]) :=
  ⟨(sqlite_writer_record_immutable envOk 1 stOk).1,
    (sqlite_writer_record_immutable envOk 1 stOk).2 [192] (by rw [show (sqlite_writer envOk 1 stOk).2.rows = [[192]] from rfl]; simp)⟩

theorem dictLookup_not_mem {K V : Type _} [DecidableEq K] {c : List (K × V)} {k : K}
    (h : k ∉ c.map Prod.fst) : dictLookup c k = none := by
  unfold dictLookup
  rw [List.find?_eq_none.mpr ?_]
  · rfl
  · intro x hx
    simp only [decide_eq_true_eq]
    intro hk
    exact h (List.mem_map.mpr ⟨x, hx, hk⟩)

theorem dictLookup_pop_none {c : List (Option String × ℕ)}
    (h : (c.map Prod.fst).Nodup) : dictLookup (dictPopNone c) none = none := by
  induction c with
  | nil => rfl
  | cons kv c ih =>
    obtain ⟨k, v⟩ := kv
    simp only [List.map_cons, List.nodup_cons] at h
    cases k with
    | none =>
      have hmem : (none : Option String) ∉ c.map Prod.fst := h.1
      simp only [dictPopNone, List.eraseP_cons, Option.isNone_none]
      simpa using dictLookup_not_mem hmem
    | some t =>
      simp only [dictPopNone, List.eraseP_cons, Option.isNone_some]
      simp only [cond_false]
      unfold dictLookup
      rw [List.find?_cons_of_neg _ (by simp)]
      exact ih h.2

theorem dictLookup_pop_some (c : List (Option String × ℕ)) (s : String) :
    dictLookup (dictPopNone c) (some s) = dictLookup c (some s) := by
  induction c with
  | nil => rfl
  | cons kv c ih =>
    obtain ⟨k, v⟩ := kv
    cases k with
    | none =>
      simp only [dictPopNone, List.eraseP_cons, Option.isNone_none, cond_true]
      unfold dictLookup
      rw [List.find?_cons_of_neg _ (by simp)]
    | some t =>
      simp only [dictPopNone, List.eraseP_cons, Option.isNone_some]
      simp only [cond_false]
      by_cases ht : t = s
      · subst ht
        unfold dictLookup
        rw [List.find?_cons_of_pos _ (by simp), List.find?_cons_of_pos _ (by simp)]
      · unfold dictLookup at ih ⊢
        rw [List.find?_cons_of_neg _ (by simp [ht]), List.find?_cons_of_neg _ (by simp [ht])]
        exact ih

/-- C10: `gen_results_tables` mutates the caller's counters in place: for
every non-empty counter argument, the entry keyed `None` (when present) is
gone from the counter the caller observes after the call, and every other
entry is unchanged. -/
theorem gen_results_tables_pops_none (aad arm : List (Option String × ℕ))
    (h1 : (aad.map Prod.fst).Nodup) (h2 : (arm.map Prod.fst).Nodup) :
    (aad ≠ [] →
      dictLookup (gen_results_tables aad arm).2.1 none = none ∧
      ∀ s : String, dictLookup (gen_results_tables aad arm).2.1 (some s)
        = dictLookup aad (some s)) ∧
    (arm ≠ [] →
      dictLookup (gen_results_tables aad arm).2.2 none = none ∧
      ∀ s : String, dictLookup (gen_results_tables aad arm).2.2 (some s)
        = dictLookup arm (some s)) := by
  constructor
  · intro ha
    have hgen : (gen_results_tables aad arm).2.1 = dictPopNone aad := by
      simp [gen_results_tables, ha]
    rw [hgen]
    exact ⟨dictLookup_pop_none h1, fun s => dictLookup_pop_some aad s⟩
  · intro ha
    have hgen : (gen_results_tables aad arm).2.2 = dictPopNone arm := by
      simp [gen_results_tables, ha]
    rw [hgen]
    exact ⟨dictLookup_pop_none h2, fun s => dictLookup_pop_some arm s⟩

/-- Witness for C10 at concrete counters containing a `None` entry. -/
theorem gen_results_tables_pops_none_witness :
    dictLookup (gen_results_tables [(some "User", 3), (none, 2)]
      [(some "VM", 1)]).2.1 none = none ∧
    dictLookup (gen_results_tables [(some "User", 3), (none, 2)]
      [(some "VM", 1)]).2.1 (some "User")
      = dictLookup [(some "User", 3), (none, 2)] (some "User") := by
  have h := gen_results_tables_pops_none [(some "User", 3), (none, 2)] [(some "VM", 1)]
    (by simp) (by simp)
  exact ⟨(h.1 (by simp)).1, (h.1 (by simp)).2 "User"⟩
